import Mathlib

/-!
Shallow embedding of the core of `pg_stat_monitor` (file
`src/pg_stat_monitor.h`) and verification of the testable properties of its
specification.  Machine doubles are modelled as rationals (`ℚ`), machine
integers as `ℕ`/`ℤ`; function bodies that live outside the header are
modelled from the specification and marked as such in their doc comments.
-/

namespace PgStatMonitor

/-! ## Constants from `pg_stat_monitor.h` -/

/-- `USAGE_INIT` (1.0): usage of a fresh entry, including initial planning. -/
def USAGE_INIT : ℚ := 1

/-- `ASSUMED_MEDIAN_INIT` (10.0): initial assumed median usage. -/
def ASSUMED_MEDIAN_INIT : ℚ := 10

/-- `USAGE_DECREASE_FACTOR` (0.99): usage decreased by this factor on every
entry dealloc pass. -/
def USAGE_DECREASE_FACTOR : ℚ := 99 / 100

/-- `STICKY_DECREASE_FACTOR` (0.50): decrease factor for sticky entries. -/
def STICKY_DECREASE_FACTOR : ℚ := 1 / 2

/-- `USAGE_DEALLOC_PERCENT` (5): free this % of entries at once. -/
def USAGE_DEALLOC_PERCENT : ℕ := 5

/-- `MAX_BUCKETS` (10). -/
def MAX_BUCKETS : ℕ := 10

/-- `sizeof(uint64)` on the target platform: 8 bytes. -/
def sizeof_uint64 : ℕ := 8

/-- `MAX_QUERY_BUF = PGSM_QUERY_SHARED_BUFFER * 1024 * 1024`, as a function of
the configured shared-buffer size (a GUC variable). -/
def MAX_QUERY_BUF (pgsm_query_shared_buffer : ℕ) : ℕ :=
  pgsm_query_shared_buffer * 1024 * 1024

/-- `QUERY_BUFFER_OVERFLOW(x,y) = ((x + y + sizeof(uint64) + sizeof(uint64)) > MAX_QUERY_BUF)`
with `x` the current buffer usage and `y` the query length; the capacity is
passed explicitly. -/
def QUERY_BUFFER_OVERFLOW (x y cap : ℕ) : Bool :=
  x + y + sizeof_uint64 + sizeof_uint64 > cap

/-! ## The composite hash key (`pgssHashKey`) -/

/-- `pgssHashKey`: the composite key of one statistics entry, all eight fields
are 64-bit values in the C source. -/
structure pgssHashKey where
  bucket_id : ℕ
  queryid : ℕ
  userid : ℕ
  dbid : ℕ
  ip : ℕ
  planid : ℕ
  appid : ℕ
  toplevel : ℕ
  deriving DecidableEq, Repr

/-! ## Timing aggregates (`CallTime`) and call counters (`Calls`) -/

/-- `CallTime`: the Welford-style online timing aggregate of one entry.
Doubles are modelled as rationals. -/
structure CallTime where
  total_time : ℚ
  min_time : ℚ
  max_time : ℚ
  mean_time : ℚ
  sum_var_time : ℚ
  deriving DecidableEq, Repr

/-- `Calls`: execution counters of one entry. -/
structure Calls where
  calls : ℕ
  rows : ℕ
  usage : ℚ
  deriving DecidableEq, Repr

/-- The zero-initialised timing aggregate of a freshly allocated entry. -/
def CallTime.init : CallTime :=
  { total_time := 0, min_time := 0, max_time := 0, mean_time := 0
    sum_var_time := 0 }

/-- The zero-initialised counters of a freshly allocated entry. -/
def Calls.init : Calls := { calls := 0, rows := 0, usage := 0 }

/-- The statistics of one entry that `record()` touches. -/
structure EntryStats where
  calls : Calls
  time : CallTime
  deriving DecidableEq, Repr

/-- A freshly allocated, zero-initialised entry. -/
def EntryStats.init : EntryStats := { calls := Calls.init, time := CallTime.init }

/-- Modelled from the spec: the body of the `record()` ingest operation is not
in the header (only the `CallTime` and `Calls` structs are); per the spec the
call/timing aggregates "obey the incremental moment-update identity (mean and
variance updated per observation, never recomputed from scratch)".  One call
with execution time `t` increments `calls` and folds `t` into the
`count/min/max/mean/sum-of-variance` aggregate Welford-style. -/
def recordCall (e : EntryStats) (t : ℚ) : EntryStats :=
  let c : ℕ := e.calls.calls + 1
  if c = 1 then
    { calls := { e.calls with calls := 1 }
      time := { total_time := t, min_time := t, max_time := t, mean_time := t
                sum_var_time := 0 } }
  else
    let old_mean := e.time.mean_time
    let new_mean := old_mean + (t - old_mean) / (c : ℚ)
    { calls := { e.calls with calls := c }
      time := { total_time := e.time.total_time + t
                min_time := min e.time.min_time t
                max_time := max e.time.max_time t
                mean_time := new_mean
                sum_var_time := e.time.sum_var_time + (t - old_mean) * (t - new_mean) } }

/-- A sequence of `record()` calls that share one key within one bucket,
applied in order to one entry. -/
def recordSeq (e : EntryStats) (ts : List ℚ) : EntryStats :=
  ts.foldl recordCall e

/-! ## The statistics hash table -/

/-- Modelled from the spec: the body of `pgsm_hash_find_or_insert` is not in
the header (only its prototype, line 531); per the spec the table "looks up by
exact key equality" and, if the key is absent, "allocates a new slot,
zero-initializes counters, stamps `bucket_id` and the supplied key".  The
table is modelled as an association list from keys to entry slot ids, with a
fresh-slot counter. -/
structure HashTab where
  entries : List (pgssHashKey × ℕ)
  nextId : ℕ
  deriving DecidableEq, Repr

/-- `pgsm_hash_find`: pure lookup by exact key equality, no side effects. -/
def pgsm_hash_find (h : HashTab) (k : pgssHashKey) : Option ℕ :=
  (h.entries.find? (fun p => p.1 == k)).map Prod.snd

/-- `pgsm_hash_find_or_insert`: returns the entry slot id for `k`, the
`found` out-parameter (`true` when the entry already existed, so that the
entry was created exactly when `found = false`), and the table after the
call. -/
def pgsm_hash_find_or_insert (h : HashTab) (k : pgssHashKey) : ℕ × Bool × HashTab :=
  match h.entries.find? (fun p => p.1 == k) with
  | some p => (p.2, true, h)
  | none =>
      (h.nextId, false,
        { entries := (k, h.nextId) :: h.entries, nextId := h.nextId + 1 })

/-- Well-formedness of the table: every live slot id was allocated below the
fresh-slot counter, and no two live entries share a slot. -/
def HashTab.WF (h : HashTab) : Prop :=
  (∀ p ∈ h.entries, p.2 < h.nextId) ∧ (h.entries.map Prod.snd).Nodup

/-- A structural operation on the statistics table that other workers may
perform between two `find_or_insert` calls: another `find_or_insert`
(`insertOp`), a `delete(key)` (`deleteOp`), or the bulk eviction of one
bucket's entries on rotation (`evictBucketOp`). -/
inductive TabOp
  | insertOp (k : pgssHashKey)
  | deleteOp (k : pgssHashKey)
  | evictBucketOp (b : ℕ)
  deriving DecidableEq, Repr

/-- Apply one structural table operation: `delete(key)` "removes the slot"
and a bucket eviction deletes every entry whose key lies in that bucket. -/
def applyTabOp (tab : HashTab) (op : TabOp) : HashTab :=
  match op with
  | TabOp.insertOp k => (pgsm_hash_find_or_insert tab k).2.2
  | TabOp.deleteOp k => { tab with entries := tab.entries.filter (fun p => p.1 != k) }
  | TabOp.evictBucketOp b =>
      { tab with entries := tab.entries.filter (fun p => p.1.bucket_id != b) }

/-- Apply a sequence of structural table operations, in order. -/
def applyTabOps (tab : HashTab) (ops : List TabOp) : HashTab :=
  ops.foldl applyTabOp tab

/-- The key `k` currently resolves to entry slot `e` in the table. -/
def keyAt (tab : HashTab) (k : pgssHashKey) (e : ℕ) : Prop :=
  ∃ p, tab.entries.find? (fun q => q.1 == k) = some p ∧ p.2 = e

/-- The empty statistics table. -/
def emptyTab : HashTab := { entries := [], nextId := 0 }

/-- A sample key: everything zero. -/
def keyA : pgssHashKey :=
  { bucket_id := 0, queryid := 0, userid := 0, dbid := 0, ip := 0,
    planid := 0, appid := 0, toplevel := 0 }

/-- A sample key differing from `keyA` only in `appid`. -/
def keyB : pgssHashKey :=
  { bucket_id := 0, queryid := 0, userid := 0, dbid := 0, ip := 0,
    planid := 0, appid := 1, toplevel := 0 }

/-! ## Global shared state (`pgssSharedState`) and `ResetSharedState` -/

/-- `pgssSharedState`: the global shared state of the header, lines 379-401.
Locks, the DSA area pointer and the hash handle are opaque values modelled as
naturals; `TimestampTz` as an integer; the `bucket_entry` and
`bucket_start_time` arrays of length `MAX_BUCKETS` as functions from
`Fin MAX_BUCKETS`. -/
structure pgssSharedState where
  lock : ℕ
  cur_median_usage : ℚ
  mutex : ℕ
  extent : ℕ
  n_writers : ℤ
  current_wbucket : ℕ
  prev_bucket_sec : ℕ
  bucket_entry : Fin MAX_BUCKETS → ℕ
  bucket_start_time : Fin MAX_BUCKETS → ℤ
  errors_lock : ℕ
  hash_tranche_id : ℤ
  raw_dsa_area : ℕ
  hash_handle : ℕ

/-- `ResetSharedState` (header lines 412-420): sets `cur_median_usage` to the
assumed initial median (twice, faithfully to the duplicated line of the
macro), zeroes `n_writers`, initialises both atomics to 0, and `memset`s the
`bucket_entry` array to zero; it touches nothing else. -/
def ResetSharedState (x : pgssSharedState) : pgssSharedState :=
  let x := { x with cur_median_usage := ASSUMED_MEDIAN_INIT }
  let x := { x with cur_median_usage := ASSUMED_MEDIAN_INIT }
  let x := { x with n_writers := 0 }
  let x := { x with current_wbucket := 0 }
  let x := { x with prev_bucket_sec := 0 }
  { x with bucket_entry := fun _ => 0 }

/-! ## Usage decay of the dealloc pass -/

/-- An entry as seen by the eviction policy: its decaying usage score and
whether it is sticky (pinned by being the current in-flight statement). -/
structure EvictEntry where
  usage : ℚ
  sticky : Bool
  deriving DecidableEq, Repr

/-- The per-pass decrease factor: `STICKY_DECREASE_FACTOR` (0.50) for sticky
entries, `USAGE_DECREASE_FACTOR` (0.99) otherwise. -/
def decayFactor (sticky : Bool) : ℚ :=
  if sticky then STICKY_DECREASE_FACTOR else USAGE_DECREASE_FACTOR

/-- Modelled from the spec: the body of the dealloc pass is not in the header
(only the `USAGE_DECREASE_FACTOR` / `STICKY_DECREASE_FACTOR` constants and
the `hash_entry_dealloc` prototype are); per the spec each entry's usage is
"multiplied by a decrease factor (e.g. 0.99) on every dealloc pass, with a
steeper decrease factor applied to sticky entries".  One pass's decay step on
one entry. -/
def deallocDecay (e : EvictEntry) : EvictEntry :=
  { e with usage := e.usage * decayFactor e.sticky }

/-- An entry with initial usage `u` and stickiness `b` survives `k` dealloc
passes with respect to the eviction threshold `m` when its decayed usage has
not dropped below `m`. -/
def survivesPasses (b : Bool) (u m : ℚ) (k : ℕ) : Prop :=
  m ≤ (deallocDecay^[k] { usage := u, sticky := b }).usage

/-! ## The query text store (`SaveQueryText`) -/

/-- The `OVERFLOW_TARGET` enum: `OVERFLOW_TARGET_NONE`, `OVERFLOW_TARGET_DISK`. -/
inductive OverflowTargetKind
  | targetNone
  | targetDisk
  deriving DecidableEq, Repr

/-- The shared query text buffer: current usage (the extent), capacity
(`MAX_QUERY_BUF`), and the saved records as
`(offset handle, bucket id, query id, bytes)`. -/
structure QueryTextBuf where
  used : ℕ
  cap : ℕ
  records : List (ℕ × ℕ × ℕ × List ℕ)
  deriving DecidableEq, Repr

/-- Result of a save: a position handle on success, a degraded outcome on
buffer overflow.  `hardError` stands for an `ereport(ERROR)` escaping to the
caller; the save never produces it. -/
inductive SaveOutcome
  | savedAt (pos : ℕ)
  | sentToDisk
  | emptyTextEntry
  | hardError
  deriving DecidableEq, Repr

/-- Modelled from the spec: the body of `SaveQueryText` is not in the header
(only its prototype, lines 461-466, and the `QUERY_BUFFER_OVERFLOW` room
check, line 96, are); per the spec the save appends the text (preceded by the
two `uint64` key words, bucket id and query id) when there is room, and on
overflow "either ... writes to an external overflow sink, or fails the save
(entry still created, with empty text) — behavior selected by configuration,
never a hard error".  The room check itself is taken verbatim from the
header's `QUERY_BUFFER_OVERFLOW` macro. -/
def SaveQueryText (buf : QueryTextBuf) (cfg : OverflowTargetKind)
    (bucketid queryid : ℕ) (query : List ℕ) : QueryTextBuf × SaveOutcome :=
  if QUERY_BUFFER_OVERFLOW buf.used query.length buf.cap then
    if cfg = OverflowTargetKind.targetDisk then (buf, SaveOutcome.sentToDisk)
    else (buf, SaveOutcome.emptyTextEntry)
  else
    ({ buf with
        used := buf.used + query.length + sizeof_uint64 + sizeof_uint64
        records := (buf.used, bucketid, queryid, query) :: buf.records },
      SaveOutcome.savedAt buf.used)

/-! ## The dealloc pass (`hash_entry_dealloc`) -/

/-- Usage-ascending order on eviction entries. -/
def usageLE (a b : EvictEntry) : Prop := a.usage ≤ b.usage

instance : DecidableRel usageLE :=
  fun a b => inferInstanceAs (Decidable (a.usage ≤ b.usage))

instance : IsTotal EvictEntry usageLE := ⟨fun a b => le_total a.usage b.usage⟩

instance : IsTrans EvictEntry usageLE := ⟨fun _ _ _ hab hbc => le_trans hab hbc⟩

/-- The number of victims of one dealloc pass over `n` live entries:
`USAGE_DEALLOC_PERCENT` (5) percent of them, rounded to at least one victim
(the spec's example: 5 entries → "a dealloc pass removing ~1 entry
(5%→rounded)"). -/
def nvictims (n : ℕ) : ℕ := max 1 (n * USAGE_DEALLOC_PERCENT / 100)

/-- The live entries in usage-ascending scan order (a stable sort: ties keep
scan order within one pass). -/
def usageSorted (entries : List EvictEntry) : List EvictEntry :=
  List.insertionSort usageLE entries

/-- `cur_median_usage` as computed by a pass: the usage at the middle of the
usage-ordered scan; the assumed initial median when the table is empty. -/
def cur_median (entries : List EvictEntry) : ℚ :=
  match (usageSorted entries).get? ((usageSorted entries).length / 2) with
  | some e => e.usage
  | none => ASSUMED_MEDIAN_INIT

/-- Modelled from the spec: the body of `hash_entry_dealloc` is not in the
header (only its prototype, line 486, and `USAGE_DEALLOC_PERCENT`, line 71,
are); per the spec a dealloc pass "(1) computes the median usage across a
scan of entries, (2) removes a fixed percentage (e.g. 5%) of the lowest-usage
entries below that median".  The pass retains all but the `nvictims`
lowest-usage entries of the scan. -/
def hash_entry_dealloc (entries : List EvictEntry) : List EvictEntry :=
  (usageSorted entries).drop (nvictims entries.length)

/-- The entries evicted by one dealloc pass: the `nvictims` lowest-usage
entries of the scan. -/
def deallocEvicted (entries : List EvictEntry) : List EvictEntry :=
  (usageSorted entries).take (nvictims entries.length)

/-! ## Reading the text store back, and bucket eviction of text spans -/

/-- `read(position_handle)`: resolves the handle back to the saved bytes, or
fails with a not-found result when no record owns the handle. -/
def readQueryText (buf : QueryTextBuf) (pos : ℕ) : Option (List ℕ) :=
  (buf.records.find? (fun r => r.1 == pos)).map (fun r => r.2.2.2)

/-- Modelled from the spec: releasing the text spans of an evicted bucket is
done by `hash_entry_dealloc`/`hash_query_entry_dealloc`, whose bodies are not
in the header; per the spec, on rotation the recycled bucket "has all its
entries deleted from the Statistics Table and its text-store spans
released". -/
def evictBucketTexts (buf : QueryTextBuf) (b : ℕ) : QueryTextBuf :=
  { buf with records := buf.records.filter (fun r => r.2.1 != b) }

/-- An operation on the text store that may happen after a save: another save
(for some other entry) or the eviction of a bucket's text spans. -/
inductive StoreOp
  | saveOp (bucketid queryid : ℕ) (query : List ℕ)
  | evictOp (bucketid : ℕ)
  deriving DecidableEq, Repr

/-- Apply one store operation. -/
def applyStoreOp (buf : QueryTextBuf) (op : StoreOp) : QueryTextBuf :=
  match op with
  | StoreOp.saveOp b q query =>
      (SaveQueryText buf OverflowTargetKind.targetNone b q query).1
  | StoreOp.evictOp b => evictBucketTexts buf b

/-- Apply a sequence of store operations, in order. -/
def applyStoreOps (buf : QueryTextBuf) (ops : List StoreOp) : QueryTextBuf :=
  ops.foldl applyStoreOp buf

/-- Well-formedness of the text store: every record's handle lies below the
used extent (handles are allocated at the extent, which only grows). -/
def QueryTextBuf.WF (buf : QueryTextBuf) : Prop :=
  ∀ r ∈ buf.records, r.1 < buf.used

/-- The handle `pos` resolves, uniquely, to the text of bucket `b` with bytes
`bytes`, and lies below the used extent. -/
def goodAt (buf : QueryTextBuf) (pos b : ℕ) (bytes : List ℕ) : Prop :=
  (∀ r ∈ buf.records, r.1 = pos → r.2.1 = b ∧ r.2.2.2 = bytes) ∧
  (∃ r ∈ buf.records, r.1 = pos) ∧ pos < buf.used

/-- The handle `pos` resolves to nothing, and lies below the used extent (so
no later save can reissue it). -/
def badAt (buf : QueryTextBuf) (pos : ℕ) : Prop :=
  (∀ r ∈ buf.records, r.1 ≠ pos) ∧ pos < buf.used

/-! ## The steady-state ingest path and its error absorption -/

/-- The internal adverse conditions of §7 that can arise during one ingest
and are injected into the model: a failed acquisition of the entry's lock, or
a corrupted text-store handle. -/
structure IngestConditions where
  lockFailure : Bool
  corruptHandle : Bool
  deriving DecidableEq, Repr

/-- A failure raised to the caller — an `ereport(ERROR)` aborting the
caller's query.  The ingest path never produces it. -/
inductive PgsmError
  | raisedToCaller
  deriving DecidableEq, Repr

/-- How one ingest call ended: recorded into a slot, dropped because the
table is at hard capacity, or skipped (and logged) because of a lock failure
or corrupted handle. -/
inductive IngestOutcome
  | recorded (slot : ℕ)
  | entryDropped
  | skippedLogged
  deriving DecidableEq, Repr

/-- The state touched by one ingest: the statistics table, the per-slot
counters, the query text buffer and the configured hard capacity. -/
structure IngestState where
  tab : HashTab
  stats : ℕ → EntryStats
  textBuf : QueryTextBuf
  maxEntries : ℕ

/-- Modelled from the spec: `find_or_insert` "fails (returns not-created,
null entry) if the table is at hard capacity and eviction cannot free a
slot". -/
def find_or_insert_capped (tab : HashTab) (maxEntries : ℕ) (k : pgssHashKey) :
    Option (ℕ × Bool × HashTab) :=
  match tab.entries.find? (fun p => p.1 == k) with
  | some p => some (p.2, true, tab)
  | none =>
      if tab.entries.length < maxEntries then some (pgsm_hash_find_or_insert tab k)
      else none

/-- Modelled from the spec: the body of the ingest (`record()` /
`pgsm_store`) path is not in the header; per §5/§7 every internal condition —
table full, text buffer full (absorbed inside `SaveQueryText`), lock failure,
corrupted handle — is absorbed locally (entry dropped, text truncated or
dangled, or the update skipped and logged) and the operation never raises a
failure to the caller. -/
def pgsm_store (s : IngestState) (cond : IngestConditions) (k : pgssHashKey)
    (cfg : OverflowTargetKind) (query : List ℕ) (t : ℚ) :
    Except PgsmError (IngestState × IngestOutcome) :=
  if cond.lockFailure || cond.corruptHandle then
    Except.ok (s, IngestOutcome.skippedLogged)
  else
    match find_or_insert_capped s.tab s.maxEntries k with
    | none => Except.ok (s, IngestOutcome.entryDropped)
    | some (slot, _, tab') =>
        Except.ok
          ({ s with
              tab := tab'
              textBuf := (SaveQueryText s.textBuf cfg k.bucket_id k.queryid query).1
              stats := fun i => if i = slot then recordCall (s.stats i) t else s.stats i },
            IngestOutcome.recorded slot)

/-! ## Concurrent `record()` calls under the entry lock -/

/-- Program counter of one worker performing the `calls + 1` counter merge of
`record()` under the entry's own spinlock (`pgssEntry.mutex`, header line
372: "protects the counters only"): not yet started, lock held, counter read
into a register, counter written back, lock released. -/
inductive WorkerPC
  | ready
  | acquired
  | readv (v : ℕ)
  | wrote
  | done
  deriving DecidableEq, Repr

/-- The shared entry counter, the spinlock owner, and each worker's program
counter, for `W` concurrent workers. -/
structure RecState (W : ℕ) where
  calls : ℕ
  lockHolder : Option (Fin W)
  pc : Fin W → WorkerPC

/-- Modelled from the spec: the interleaving semantics of `W` workers each
performing `SpinLockAcquire(&entry->mutex); read calls; write calls + 1;
SpinLockRelease(&entry->mutex)` on one entry.  Any worker may step at any
time; the lock steps enforce mutual exclusion of the read-modify-write. -/
inductive RecStep (W : ℕ) : RecState W → RecState W → Prop
  | acquire (s : RecState W) (w : Fin W) :
      s.lockHolder = none → s.pc w = WorkerPC.ready →
      RecStep W s
        { s with lockHolder := some w, pc := Function.update s.pc w WorkerPC.acquired }
  | readCalls (s : RecState W) (w : Fin W) :
      s.lockHolder = some w → s.pc w = WorkerPC.acquired →
      RecStep W s { s with pc := Function.update s.pc w (WorkerPC.readv s.calls) }
  | writeCalls (s : RecState W) (w : Fin W) (v : ℕ) :
      s.lockHolder = some w → s.pc w = WorkerPC.readv v →
      RecStep W s
        { s with calls := v + 1, pc := Function.update s.pc w WorkerPC.wrote }
  | release (s : RecState W) (w : Fin W) :
      s.lockHolder = some w → s.pc w = WorkerPC.wrote →
      RecStep W s
        { s with lockHolder := none, pc := Function.update s.pc w WorkerPC.done }

/-- The initial state: counter at `c0`, lock free, all workers ready. -/
def recInit (W c0 : ℕ) : RecState W :=
  { calls := c0, lockHolder := none, pc := fun _ => WorkerPC.ready }

/-- How much a worker in the given program counter state has already added to
the shared counter. -/
def contrib (p : WorkerPC) : ℕ :=
  match p with
  | WorkerPC.wrote => 1
  | WorkerPC.done => 1
  | _ => 0

/-- The inductive invariant: the counter accounts for every worker that has
written, and a worker holding a read value owns the lock and read the current
counter. -/
def RecInv (W c0 : ℕ) (s : RecState W) : Prop :=
  s.calls = c0 + ∑ w, contrib (s.pc w) ∧
  (∀ w, s.pc w = WorkerPC.acquired → s.lockHolder = some w) ∧
  (∀ w v, s.pc w = WorkerPC.readv v → s.lockHolder = some w ∧ v = s.calls)

/-- The four states of the one-worker witness trace. -/
def rs0 : RecState 1 := recInit 1 0

/-- Witness trace: after the acquire step. -/
def rs1 : RecState 1 :=
  { rs0 with lockHolder := some 0, pc := Function.update rs0.pc 0 WorkerPC.acquired }

/-- Witness trace: after the read step. -/
def rs2 : RecState 1 :=
  { rs1 with pc := Function.update rs1.pc 0 (WorkerPC.readv rs1.calls) }

/-- Witness trace: after the write step. -/
def rs3 : RecState 1 :=
  { rs2 with calls := 0 + 1, pc := Function.update rs2.pc 0 WorkerPC.wrote }

/-- Witness trace: after the release step. -/
def rs4 : RecState 1 :=
  { rs3 with lockHolder := none, pc := Function.update rs3.pc 0 WorkerPC.done }

/-- The `min_time ≤ mean_time ≤ max_time` invariant of a timing aggregate. -/
def CallTime.wellOrdered (ct : CallTime) : Prop :=
  ct.min_time ≤ ct.mean_time ∧ ct.mean_time ≤ ct.max_time

lemma recordCall_calls (e : EntryStats) (t : ℚ) :
    (recordCall e t).calls.calls = e.calls.calls + 1 := by
  unfold recordCall
  by_cases hc : e.calls.calls + 1 = 1 <;> simp [hc]

lemma recordSeq_calls (ts : List ℚ) :
    ∀ e : EntryStats, (recordSeq e ts).calls.calls = e.calls.calls + ts.length := by
  induction ts with
  | nil => intro e; simp [recordSeq]
  | cons t rest ih =>
      intro e
      have : recordSeq e (t :: rest) = recordSeq (recordCall e t) rest := rfl
      rw [this, ih, recordCall_calls]
      simp; omega

lemma convex_between_min_max (m t r : ℚ) (h0 : 0 ≤ r) (h1 : r ≤ 1) :
    min m t ≤ m + (t - m) * r ∧ m + (t - m) * r ≤ max m t := by
  constructor
  · rcases le_total m t with h | h
    · have hm : min m t = m := min_eq_left h
      nlinarith
    · have hm : min m t = t := min_eq_right h
      nlinarith
  · rcases le_total m t with h | h
    · have hm : max m t = t := max_eq_right h
      nlinarith
    · have hm : max m t = m := max_eq_left h
      nlinarith

lemma recordCall_wellOrdered (e : EntryStats) (t : ℚ)
    (h : e.calls.calls = 0 ∨ e.time.wellOrdered) :
    (recordCall e t).time.wellOrdered := by
  unfold recordCall
  by_cases hc : e.calls.calls + 1 = 1
  · simp [hc, CallTime.wellOrdered]
  · have hne : e.calls.calls ≠ 0 := by omega
    rcases h with h0 | ⟨h1, h2⟩
    · exact absurd h0 hne
    simp only [if_neg hc, CallTime.wellOrdered]
    have hcpos : (1 : ℚ) ≤ ((e.calls.calls + 1 : ℕ) : ℚ) := by
      exact_mod_cast Nat.one_le_iff_ne_zero.mpr (by omega)
    have hcpos0 : (0 : ℚ) < ((e.calls.calls + 1 : ℕ) : ℚ) := lt_of_lt_of_le one_pos hcpos
    have hr0 : 0 ≤ (((e.calls.calls + 1 : ℕ) : ℚ))⁻¹ := le_of_lt (inv_pos.mpr hcpos0)
    have hr1 : (((e.calls.calls + 1 : ℕ) : ℚ))⁻¹ ≤ 1 := inv_le_one_of_one_le₀ hcpos
    have hb := convex_between_min_max e.time.mean_time t
      (((e.calls.calls + 1 : ℕ) : ℚ))⁻¹ hr0 hr1
    have hdiv : e.time.mean_time + (t - e.time.mean_time) / ((e.calls.calls + 1 : ℕ) : ℚ) =
        e.time.mean_time + (t - e.time.mean_time) * (((e.calls.calls + 1 : ℕ) : ℚ))⁻¹ := by
      rw [div_eq_mul_inv]
    constructor
    · calc min e.time.min_time t ≤ min e.time.mean_time t := by
            exact min_le_min h1 le_rfl
        _ ≤ _ := by rw [hdiv]; push_cast; push_cast at hb; exact hb.1
    · calc e.time.mean_time + (t - e.time.mean_time) / ((e.calls.calls + 1 : ℕ) : ℚ)
          ≤ max e.time.mean_time t := by rw [hdiv]; push_cast; push_cast at hb; exact hb.2
        _ ≤ max e.time.max_time t := max_le_max h2 le_rfl

lemma recordSeq_wellOrdered (ts : List ℚ) :
    ∀ e : EntryStats, (e.calls.calls = 0 ∨ e.time.wellOrdered) →
      ((recordSeq e ts).calls.calls = 0 ∨ (recordSeq e ts).time.wellOrdered) := by
  induction ts with
  | nil => intro e h; exact h
  | cons t rest ih =>
      intro e h
      have hstep : recordSeq e (t :: rest) = recordSeq (recordCall e t) rest := rfl
      rw [hstep]
      exact ih (recordCall e t) (Or.inr (recordCall_wellOrdered e t h))

/-- C1: for every sequence of `record()` calls that share one key within one
bucket, after the sequence the entry's `calls` counter equals the number of
calls in the sequence, and after every single update (i.e. after every
nonempty initial segment of the sequence) the entry's timing aggregate
satisfies `min_time ≤ mean_time ≤ max_time`. -/
theorem record_calls_count_and_time_bounds (ts : List ℚ) :
    (recordSeq EntryStats.init ts).calls.calls = ts.length ∧
    ∀ pre : List ℚ, pre <+: ts → pre ≠ [] →
      (recordSeq EntryStats.init pre).time.min_time ≤
        (recordSeq EntryStats.init pre).time.mean_time ∧
      (recordSeq EntryStats.init pre).time.mean_time ≤
        (recordSeq EntryStats.init pre).time.max_time := by
  constructor
  · rw [recordSeq_calls]; simp [EntryStats.init, Calls.init]
  · intro pre _ hne
    have hcalls : (recordSeq EntryStats.init pre).calls.calls = pre.length := by
      rw [recordSeq_calls]; simp [EntryStats.init, Calls.init]
    have h := recordSeq_wellOrdered pre EntryStats.init (Or.inl rfl)
    rcases h with h0 | hwo
    · rw [hcalls] at h0
      exact absurd (List.length_eq_zero.mp h0) hne
    · exact hwo

/-- Witness for C1 at the concrete call sequence `[3, 1, 2]` and its prefix `[3, 1]`. -/
theorem record_calls_count_and_time_bounds_witness :
    (recordSeq EntryStats.init [3, 1, 2]).calls.calls = 3 ∧
    ((recordSeq EntryStats.init [3, 1]).time.min_time ≤
        (recordSeq EntryStats.init [3, 1]).time.mean_time ∧
      (recordSeq EntryStats.init [3, 1]).time.mean_time ≤
        (recordSeq EntryStats.init [3, 1]).time.max_time) := by
  obtain ⟨h1, h2⟩ := record_calls_count_and_time_bounds [3, 1, 2]
  exact ⟨h1, h2 [3, 1] ⟨[2], rfl⟩ (by decide)⟩

lemma find_or_insert_again (h : HashTab) (k : pgssHashKey) :
    pgsm_hash_find_or_insert (pgsm_hash_find_or_insert h k).2.2 k =
      ((pgsm_hash_find_or_insert h k).1, true, (pgsm_hash_find_or_insert h k).2.2) := by
  unfold pgsm_hash_find_or_insert
  cases hfind : h.entries.find? (fun p => p.1 == k) with
  | some p => simp [hfind]
  | none =>
      have hhead : (((k, h.nextId) : pgssHashKey × ℕ).1 == k) = true := by simp
      simp [hfind, List.find?_cons_of_pos _ hhead]

lemma find_or_insert_WF (h : HashTab) (k : pgssHashKey) (hwf : h.WF) :
    (pgsm_hash_find_or_insert h k).2.2.WF := by
  unfold pgsm_hash_find_or_insert
  cases hfind : h.entries.find? (fun p => p.1 == k) with
  | some p => exact hwf
  | none =>
      obtain ⟨hlt, hnd⟩ := hwf
      refine ⟨?_, ?_⟩
      · intro p hp
        rcases List.mem_cons.mp hp with hp | hp
        · rw [hp]; exact Nat.lt_succ_self _
        · exact Nat.lt_succ_of_lt (hlt p hp)
      · refine List.nodup_cons.mpr ⟨?_, hnd⟩
        intro hmem
        rcases List.mem_map.mp hmem with ⟨q, hq, hq2⟩
        exact absurd (hq2 ▸ hlt q hq) (lt_irrefl _)

lemma find?_eq_some_key (l : List (pgssHashKey × ℕ)) (k : pgssHashKey)
    (p : pgssHashKey × ℕ) (hfind : l.find? (fun q => q.1 == k) = some p) :
    p.1 = k ∧ p ∈ l := by
  have h1 := List.find?_some hfind
  have h2 := List.mem_of_find?_eq_some hfind
  exact ⟨by simpa using h1, h2⟩

lemma find_or_insert_of_found (h : HashTab) (k : pgssHashKey) (p : pgssHashKey × ℕ)
    (hfind : h.entries.find? (fun q => q.1 == k) = some p) :
    pgsm_hash_find_or_insert h k = (p.2, true, h) := by
  unfold pgsm_hash_find_or_insert
  simp [hfind]

lemma find_or_insert_of_absent (h : HashTab) (k : pgssHashKey)
    (hfind : h.entries.find? (fun q => q.1 == k) = none) :
    pgsm_hash_find_or_insert h k =
      (h.nextId, false,
        { entries := (k, h.nextId) :: h.entries, nextId := h.nextId + 1 }) := by
  unfold pgsm_hash_find_or_insert
  simp [hfind]

lemma keyAt_find_or_insert (h : HashTab) (k : pgssHashKey) :
    keyAt (pgsm_hash_find_or_insert h k).2.2 k (pgsm_hash_find_or_insert h k).1 := by
  cases hfind : h.entries.find? (fun p => p.1 == k) with
  | some p =>
      rw [find_or_insert_of_found h k p hfind]
      exact ⟨p, hfind, rfl⟩
  | none =>
      rw [find_or_insert_of_absent h k hfind]
      refine ⟨(k, h.nextId), ?_, rfl⟩
      have hhead : (((k, h.nextId) : pgssHashKey × ℕ).1 == k) = true := by simp
      exact List.find?_cons_of_pos _ hhead

lemma keyAt_insertOp (tab : HashTab) (k k' : pgssHashKey) (e : ℕ)
    (hk : keyAt tab k e) : keyAt (pgsm_hash_find_or_insert tab k').2.2 k e := by
  obtain ⟨p, hfind, hpe⟩ := hk
  cases hfind' : tab.entries.find? (fun q => q.1 == k') with
  | some q =>
      rw [find_or_insert_of_found tab k' q hfind']
      exact ⟨p, hfind, hpe⟩
  | none =>
      rw [find_or_insert_of_absent tab k' hfind']
      refine ⟨p, ?_, hpe⟩
      have hne : k' ≠ k := by
        intro hc
        subst hc
        rw [hfind'] at hfind
        cases hfind
      have hhead : ¬ ((fun q : pgssHashKey × ℕ => q.1 == k) (k', tab.nextId) = true) := by
        simp only [beq_iff_eq]
        exact hne
      show List.find? (fun q => q.1 == k) ((k', tab.nextId) :: tab.entries) = some p
      have hcons : List.find? (fun q => q.1 == k) ((k', tab.nextId) :: tab.entries) =
          List.find? (fun q => q.1 == k) tab.entries := by
        rw [List.find?_cons_of_neg]
        exact hhead
      rw [hcons]
      exact hfind

lemma keyAt_found (tab : HashTab) (k : pgssHashKey) (e : ℕ) (hk : keyAt tab k e) :
    pgsm_hash_find_or_insert tab k = (e, true, tab) := by
  obtain ⟨p, hfind, hpe⟩ := hk
  rw [find_or_insert_of_found tab k p hfind, hpe]

lemma keyAt_ops (ops : List TabOp) :
    ∀ tab : HashTab, ∀ k : pgssHashKey, ∀ e : ℕ, keyAt tab k e →
      (∀ op ∈ ops, (∀ k', op ≠ TabOp.deleteOp k') ∧
        (∀ b, op ≠ TabOp.evictBucketOp b)) →
      keyAt (applyTabOps tab ops) k e := by
  induction ops with
  | nil => intro tab k e h _; exact h
  | cons op rest ih =>
      intro tab k e h hops
      have hrest : ∀ o ∈ rest, (∀ k', o ≠ TabOp.deleteOp k') ∧
          (∀ b, o ≠ TabOp.evictBucketOp b) :=
        fun o ho => hops o (List.mem_cons_of_mem _ ho)
      have hop := hops op (List.mem_cons_self _ _)
      cases op with
      | insertOp k' => exact ih _ k e (keyAt_insertOp tab k k' e h) hrest
      | deleteOp k' => exact absurd rfl (hop.1 k')
      | evictBucketOp b => exact absurd rfl (hop.2 b)

/-- C2: `find_or_insert(k)` called twice within the same bucket, with any
intervening structural operations that are neither a delete nor a bucket
eviction (in particular, `find_or_insert` calls for arbitrary other keys),
returns the same entry slot both times, and the second call reports
`found = true` (that is, `created = false`). -/
theorem find_or_insert_twice_same_entry (h : HashTab) (k : pgssHashKey)
    (ops : List TabOp)
    (hops : ∀ op ∈ ops, (∀ k', op ≠ TabOp.deleteOp k') ∧
      (∀ b, op ≠ TabOp.evictBucketOp b)) :
    (pgsm_hash_find_or_insert
        (applyTabOps (pgsm_hash_find_or_insert h k).2.2 ops) k).1 =
      (pgsm_hash_find_or_insert h k).1 ∧
    (pgsm_hash_find_or_insert
        (applyTabOps (pgsm_hash_find_or_insert h k).2.2 ops) k).2.1 = true := by
  have h1 := keyAt_find_or_insert h k
  have h2 := keyAt_ops ops _ k _ h1 hops
  rw [keyAt_found _ k _ h2]
  exact ⟨rfl, rfl⟩

/-- Witness for C2: insert `keyA` into the empty table, let another worker
insert `keyB` in between, then call `find_or_insert(keyA)` again — same slot,
`found = true`. -/
theorem find_or_insert_twice_same_entry_witness :
    (pgsm_hash_find_or_insert
        (applyTabOps (pgsm_hash_find_or_insert emptyTab keyA).2.2
          [TabOp.insertOp keyB]) keyA).1 =
      (pgsm_hash_find_or_insert emptyTab keyA).1 ∧
    (pgsm_hash_find_or_insert
        (applyTabOps (pgsm_hash_find_or_insert emptyTab keyA).2.2
          [TabOp.insertOp keyB]) keyA).2.1 = true := by
  refine find_or_insert_twice_same_entry emptyTab keyA [TabOp.insertOp keyB] ?_
  intro op hop
  rw [List.mem_singleton] at hop
  subst hop
  exact ⟨(fun k' hc => nomatch hc), (fun b hc => nomatch hc)⟩

/-- C3: entry identity is structural equality of exactly the eight key
fields.  After `find_or_insert(k1)`, a second `find_or_insert(k2)` on the
resulting table returns the same entry slot if and only if `k2 = k1`; and key
equality itself is equivalent to equality of all eight fields (so keys
differing only in `appid`, or only in `bucket_id`, yield distinct entries). -/
theorem entry_identity_iff_key_equality (h : HashTab) (k1 k2 : pgssHashKey)
    (hwf : h.WF) :
    ((pgsm_hash_find_or_insert (pgsm_hash_find_or_insert h k1).2.2 k2).1 =
        (pgsm_hash_find_or_insert h k1).1 ↔ k2 = k1) ∧
    (∀ a b : pgssHashKey, a = b ↔
      (a.bucket_id = b.bucket_id ∧ a.queryid = b.queryid ∧ a.userid = b.userid ∧
       a.dbid = b.dbid ∧ a.ip = b.ip ∧ a.planid = b.planid ∧
       a.appid = b.appid ∧ a.toplevel = b.toplevel)) := by
  constructor
  · constructor
    · -- same slot → same key
      intro hsame
      by_contra hne
      cases hfind1 : h.entries.find? (fun p => p.1 == k1) with
      | some p =>
          obtain ⟨hpk, hpmem⟩ := find?_eq_some_key _ _ _ hfind1
          rw [find_or_insert_of_found h k1 p hfind1] at hsame
          cases hfind2 : h.entries.find? (fun p => p.1 == k2) with
          | some q =>
              obtain ⟨hqk, hqmem⟩ := find?_eq_some_key _ _ _ hfind2
              rw [find_or_insert_of_found h k2 q hfind2] at hsame
              simp at hsame
              have hqp : q = p := List.inj_on_of_nodup_map hwf.2 hqmem hpmem hsame
              exact hne (by rw [← hqk, hqp, hpk])
          | none =>
              rw [find_or_insert_of_absent h k2 hfind2] at hsame
              simp at hsame
              have := hwf.1 p hpmem
              omega
      | none =>
          rw [find_or_insert_of_absent h k1 hfind1] at hsame
          have hhead : ¬ ((fun q : pgssHashKey × ℕ => q.1 == k2) (k1, h.nextId) = true) := by
            simp only [beq_iff_eq]
            intro hk
            exact hne hk.symm
          have hcons : List.find? (fun p => p.1 == k2) ((k1, h.nextId) :: h.entries) =
              List.find? (fun p => p.1 == k2) h.entries := by
            rw [List.find?_cons_of_neg]
            exact hhead
          cases hfind2 : h.entries.find? (fun p => p.1 == k2) with
          | some q =>
              obtain ⟨hqk, hqmem⟩ := find?_eq_some_key _ _ _ hfind2
              have hfind2' :
                  (({ entries := (k1, h.nextId) :: h.entries,
                      nextId := h.nextId + 1 } : HashTab)).entries.find?
                    (fun p => p.1 == k2) = some q := by
                show List.find? (fun p => p.1 == k2) ((k1, h.nextId) :: h.entries) = some q
                rw [hcons]
                exact hfind2
              rw [find_or_insert_of_found _ k2 q hfind2'] at hsame
              simp at hsame
              have := hwf.1 q hqmem
              omega
          | none =>
              have hfind2' :
                  (({ entries := (k1, h.nextId) :: h.entries,
                      nextId := h.nextId + 1 } : HashTab)).entries.find?
                    (fun p => p.1 == k2) = none := by
                show List.find? (fun p => p.1 == k2) ((k1, h.nextId) :: h.entries) = none
                rw [hcons]
                exact hfind2
              rw [find_or_insert_of_absent _ k2 hfind2'] at hsame
              simp at hsame
    · -- same key → same slot
      intro hk
      rw [hk, find_or_insert_again]
  · intro a b
    cases a; cases b
    simp [pgssHashKey.mk.injEq]

/-- Witness for C3: the empty table is well-formed; instantiated with two
keys differing only in `appid`, which therefore name distinct entries. -/
theorem entry_identity_iff_key_equality_witness :
    emptyTab.WF ∧
    ((pgsm_hash_find_or_insert
        (pgsm_hash_find_or_insert emptyTab keyA).2.2 keyB).1 =
      (pgsm_hash_find_or_insert emptyTab keyA).1 ↔ keyB = keyA) := by
  have hwf : emptyTab.WF := by
    constructor
    · intro p hp
      simp [emptyTab] at hp
    · simp [emptyTab]
  exact ⟨hwf, (entry_identity_iff_key_equality emptyTab keyA keyB hwf).1⟩

/-- C10: `ResetSharedState(s)` sets `cur_median_usage` to the assumed initial
median (10.0), `n_writers` to 0, initialises the `current_wbucket` and
`prev_bucket_sec` atomics to 0 and zeroes all `MAX_BUCKETS` per-bucket entry
counts, while leaving every other field — in particular `extent`,
`bucket_start_time`, the locks, `raw_dsa_area` and `hash_handle` —
unchanged. -/
theorem ResetSharedState_resets_and_frames (x : pgssSharedState) :
    (ResetSharedState x).cur_median_usage = 10 ∧
    (ResetSharedState x).n_writers = 0 ∧
    (ResetSharedState x).current_wbucket = 0 ∧
    (ResetSharedState x).prev_bucket_sec = 0 ∧
    (∀ i, (ResetSharedState x).bucket_entry i = 0) ∧
    (ResetSharedState x).extent = x.extent ∧
    (ResetSharedState x).bucket_start_time = x.bucket_start_time ∧
    (ResetSharedState x).lock = x.lock ∧
    (ResetSharedState x).mutex = x.mutex ∧
    (ResetSharedState x).errors_lock = x.errors_lock ∧
    (ResetSharedState x).hash_tranche_id = x.hash_tranche_id ∧
    (ResetSharedState x).raw_dsa_area = x.raw_dsa_area ∧
    (ResetSharedState x).hash_handle = x.hash_handle := by
  refine ⟨rfl, rfl, rfl, rfl, fun i => rfl, rfl, rfl, rfl, rfl, rfl, rfl, rfl, rfl⟩

lemma deallocDecay_iterate (b : Bool) (u : ℚ) (k : ℕ) :
    deallocDecay^[k] { usage := u, sticky := b } =
      { usage := u * decayFactor b ^ k, sticky := b } := by
  induction k with
  | zero => simp
  | succ n ih =>
      rw [Function.iterate_succ_apply', ih]
      simp only [deallocDecay]
      rw [pow_succ]
      ring_nf

/-- Counterexample to C5 as stated: with initial usage 10 and eviction
threshold 6, the non-sticky entry survives one dealloc pass
(`10 * 0.99 = 9.9 ≥ 6`) but the sticky entry does not (`10 * 0.5 = 5 < 6`) —
the sticky entry does not survive at least as many passes as the non-sticky
one. -/
theorem sticky_survives_longer_counterexample :
    survivesPasses false 10 6 1 ∧ ¬ survivesPasses true 10 6 1 := by
  constructor <;>
    norm_num [survivesPasses, deallocDecay, decayFactor,
      STICKY_DECREASE_FACTOR, USAGE_DECREASE_FACTOR]

/-- C5 amended: on every dealloc pass each entry's usage is multiplied by the
decrease factor (0.99), with the steeper decrease factor (0.50) applied to
sticky entries; consequently a sticky entry survives at MOST as many dealloc
passes before eviction as a non-sticky entry with the same (nonnegative)
usage and access history — the steeper decay evicts sticky entries sooner. -/
theorem sticky_decay_steeper_evicts_sooner (e : EvictEntry) (u m : ℚ) (k : ℕ)
    (hu : 0 ≤ u) :
    (deallocDecay e).usage =
      e.usage * (if e.sticky then STICKY_DECREASE_FACTOR else USAGE_DECREASE_FACTOR) ∧
    STICKY_DECREASE_FACTOR < USAGE_DECREASE_FACTOR ∧
    (survivesPasses true u m k → survivesPasses false u m k) := by
  refine ⟨rfl, by norm_num [STICKY_DECREASE_FACTOR, USAGE_DECREASE_FACTOR], ?_⟩
  intro hs
  unfold survivesPasses at hs ⊢
  rw [deallocDecay_iterate] at hs ⊢
  refine le_trans hs ?_
  refine mul_le_mul_of_nonneg_left ?_ hu
  refine pow_le_pow_left₀ ?_ ?_ k <;>
    norm_num [decayFactor, STICKY_DECREASE_FACTOR, USAGE_DECREASE_FACTOR]

/-- Witness for C5 (amended) at usage 10, threshold 5, one pass. -/
theorem sticky_decay_steeper_evicts_sooner_witness :
    (0 : ℚ) ≤ 10 ∧ (survivesPasses true 10 5 1 → survivesPasses false 10 5 1) :=
  ⟨by norm_num,
    (sticky_decay_steeper_evicts_sooner { usage := 10, sticky := true } 10 5 1
      (by norm_num)).2.2⟩

/-- Counterexample to C4 as stated: an exact fit.  With capacity 100, usage 4
and an 80-byte query, `used + length + key-size = 100 = capacity`, so the
claimed room condition `used + length + key-size < capacity` fails — yet the
code's `QUERY_BUFFER_OVERFLOW` check is `> capacity`, which does not fire, so
the save succeeds and returns a handle. -/
theorem save_room_strict_counterexample :
    (SaveQueryText { used := 4, cap := 100, records := [] }
        OverflowTargetKind.targetNone 0 0 (List.replicate 80 0)).2 =
      SaveOutcome.savedAt 4 ∧
    ¬ (4 + (List.replicate 80 (0 : ℕ)).length + sizeof_uint64 + sizeof_uint64 < 100) := by
  constructor
  · rfl
  · decide

/-- C4 amended: `save(bucket_id, query_id, text, length)` appends the text
into the shared buffer and returns a position handle exactly when
`used + length + key-size ≤ capacity` (the code's overflow check
`QUERY_BUFFER_OVERFLOW` fires only on a strict excess, so an exact fit is
still saved); when the room condition fails, the save degrades per
configuration (external disk sink, or entry created with empty text) and is
never a hard error raised to the caller. -/
theorem SaveQueryText_room_iff (buf : QueryTextBuf) (cfg : OverflowTargetKind)
    (bucketid queryid : ℕ) (query : List ℕ) :
    ((∃ pos, (SaveQueryText buf cfg bucketid queryid query).2 =
        SaveOutcome.savedAt pos) ↔
      buf.used + query.length + sizeof_uint64 + sizeof_uint64 ≤ buf.cap) ∧
    (SaveQueryText buf cfg bucketid queryid query).2 ≠ SaveOutcome.hardError ∧
    (QUERY_BUFFER_OVERFLOW buf.used query.length buf.cap = false →
      (SaveQueryText buf cfg bucketid queryid query).2 = SaveOutcome.savedAt buf.used ∧
      (SaveQueryText buf cfg bucketid queryid query).1.records =
        (buf.used, bucketid, queryid, query) :: buf.records) ∧
    (QUERY_BUFFER_OVERFLOW buf.used query.length buf.cap = true →
      (SaveQueryText buf cfg bucketid queryid query).2 =
        (if cfg = OverflowTargetKind.targetDisk then SaveOutcome.sentToDisk
         else SaveOutcome.emptyTextEntry)) := by
  unfold SaveQueryText QUERY_BUFFER_OVERFLOW
  by_cases hov : buf.used + query.length + sizeof_uint64 + sizeof_uint64 > buf.cap
  · by_cases hcfg : cfg = OverflowTargetKind.targetDisk <;>
      simp [hov, hcfg]
  · simp [hov]
    omega

/-- Witness for C4 (amended): an overflowing save (usage 90, 80-byte query,
capacity 100) under the `none` overflow target yields an empty-text entry. -/
theorem SaveQueryText_room_iff_witness :
    QUERY_BUFFER_OVERFLOW 90 (List.replicate 80 (0 : ℕ)).length 100 = true ∧
    (SaveQueryText { used := 90, cap := 100, records := [] }
        OverflowTargetKind.targetNone 0 0 (List.replicate 80 0)).2 =
      (if (OverflowTargetKind.targetNone : OverflowTargetKind) =
          OverflowTargetKind.targetDisk then SaveOutcome.sentToDisk
       else SaveOutcome.emptyTextEntry) :=
  ⟨by decide,
    (SaveQueryText_room_iff { used := 90, cap := 100, records := [] }
      OverflowTargetKind.targetNone 0 0 (List.replicate 80 0)).2.2.2 (by decide)⟩

/-- C6: when the table is full, one dealloc pass strictly reduces occupancy,
removing exactly `nvictims` entries — `USAGE_DEALLOC_PERCENT` (5%) of them,
rounded to at least one — and for every pair of an evicted and a retained
entry it never evicts one with usage strictly above the computed median while
retaining one with usage strictly below it. -/
theorem dealloc_pass_occupancy_and_median (entries : List EvictEntry)
    (hne : entries ≠ []) :
    (hash_entry_dealloc entries).length =
      entries.length - nvictims entries.length ∧
    (hash_entry_dealloc entries).length < entries.length ∧
    ∀ e ∈ deallocEvicted entries, ∀ r ∈ hash_entry_dealloc entries,
      ¬ (cur_median entries < e.usage ∧ r.usage < cur_median entries) := by
  have hlen : (usageSorted entries).length = entries.length :=
    List.length_insertionSort usageLE entries
  have hlen1 : 1 ≤ entries.length := by
    cases entries with
    | nil => exact absurd rfl hne
    | cons a l => simp
  refine ⟨?_, ?_, ?_⟩
  · rw [hash_entry_dealloc, List.length_drop, hlen]
  · rw [hash_entry_dealloc, List.length_drop, hlen]
    have : 1 ≤ nvictims entries.length := le_max_left _ _
    omega
  · intro e he r hr hcontra
    have hsorted : List.Sorted usageLE (usageSorted entries) :=
      List.sorted_insertionSort usageLE entries
    have hle : usageLE e r :=
      hsorted.rel_of_mem_take_of_mem_drop he hr
    have : e.usage ≤ r.usage := hle
    have h1 := hcontra.1
    have h2 := hcontra.2
    linarith

/-- Witness for C6 at a full table of five entries: the pass evicts exactly
one (5% of 5 rounded up), and the median property holds. -/
theorem dealloc_pass_occupancy_and_median_witness :
    (({ usage := 3, sticky := false } ::
      { usage := 1, sticky := false } ::
      { usage := 4, sticky := false } ::
      { usage := 2, sticky := false } ::
      { usage := 5, sticky := false } :: ([] : List EvictEntry)) ≠ []) ∧
    (hash_entry_dealloc
      ({ usage := 3, sticky := false } ::
       { usage := 1, sticky := false } ::
       { usage := 4, sticky := false } ::
       { usage := 2, sticky := false } ::
       { usage := 5, sticky := false } :: ([] : List EvictEntry))).length = 4 := by
  have h := dealloc_pass_occupancy_and_median
    ({ usage := 3, sticky := false } ::
     { usage := 1, sticky := false } ::
     { usage := 4, sticky := false } ::
     { usage := 2, sticky := false } ::
     { usage := 5, sticky := false } :: ([] : List EvictEntry)) (by simp)
  exact ⟨by simp, by rw [h.1]; rfl⟩

lemma goodAt_read (buf : QueryTextBuf) (pos b : ℕ) (bytes : List ℕ)
    (h : goodAt buf pos b bytes) : readQueryText buf pos = some bytes := by
  obtain ⟨hall, ⟨r0, hr0, hr0pos⟩, hlt⟩ := h
  have hsome : (buf.records.find? (fun r => r.1 == pos)).isSome := by
    rw [List.find?_isSome]
    exact ⟨r0, hr0, by simpa using hr0pos⟩
  obtain ⟨r', hr'⟩ := Option.isSome_iff_exists.mp hsome
  have hmem := List.mem_of_find?_eq_some hr'
  have hpos : r'.1 = pos := by simpa using List.find?_some hr'
  have hbytes := (hall r' hmem hpos).2
  rw [readQueryText, hr']
  simp [hbytes]

lemma badAt_read (buf : QueryTextBuf) (pos : ℕ) (h : badAt buf pos) :
    readQueryText buf pos = none := by
  obtain ⟨hall, _⟩ := h
  rw [readQueryText]
  have hnone : buf.records.find? (fun r => r.1 == pos) = none := by
    rw [List.find?_eq_none]
    intro r hr
    simpa using hall r hr
  rw [hnone]
  rfl

lemma SaveQueryText_buf_cases (buf : QueryTextBuf) (cfg : OverflowTargetKind)
    (b q : ℕ) (query : List ℕ) :
    (SaveQueryText buf cfg b q query).1 = buf ∨
    (SaveQueryText buf cfg b q query).1 =
      { buf with
          used := buf.used + query.length + sizeof_uint64 + sizeof_uint64
          records := (buf.used, b, q, query) :: buf.records } := by
  unfold SaveQueryText
  by_cases hov : QUERY_BUFFER_OVERFLOW buf.used query.length buf.cap
  · by_cases hcfg : cfg = OverflowTargetKind.targetDisk <;> simp [hov, hcfg]
  · simp [hov]

lemma goodAt_saveOp (buf : QueryTextBuf) (pos b : ℕ) (bytes : List ℕ)
    (cfg : OverflowTargetKind) (b' q' : ℕ) (query' : List ℕ)
    (h : goodAt buf pos b bytes) :
    goodAt (SaveQueryText buf cfg b' q' query').1 pos b bytes := by
  obtain ⟨hall, ⟨r0, hr0, hr0pos⟩, hlt⟩ := h
  rcases SaveQueryText_buf_cases buf cfg b' q' query' with hcase | hcase <;> rw [hcase]
  · exact ⟨hall, ⟨r0, hr0, hr0pos⟩, hlt⟩
  · refine ⟨?_, ⟨r0, List.mem_cons_of_mem _ hr0, hr0pos⟩, by simp; omega⟩
    intro r hr hrpos
    rcases List.mem_cons.mp hr with hhead | htail
    · exfalso
      have : r.1 = buf.used := by rw [hhead]
      omega
    · exact hall r htail hrpos

lemma goodAt_evict_ne (buf : QueryTextBuf) (pos b b' : ℕ) (bytes : List ℕ)
    (h : goodAt buf pos b bytes) (hne : b' ≠ b) :
    goodAt (evictBucketTexts buf b') pos b bytes := by
  obtain ⟨hall, ⟨r0, hr0, hr0pos⟩, hlt⟩ := h
  refine ⟨?_, ⟨r0, ?_, hr0pos⟩, hlt⟩
  · intro r hr hrpos
    exact hall r (List.mem_filter.mp hr).1 hrpos
  · refine List.mem_filter.mpr ⟨hr0, ?_⟩
    have hb := (hall r0 hr0 hr0pos).1
    simp [hb]
    exact fun hc => hne hc.symm

lemma goodAt_evict_self (buf : QueryTextBuf) (pos b : ℕ) (bytes : List ℕ)
    (h : goodAt buf pos b bytes) : badAt (evictBucketTexts buf b) pos := by
  obtain ⟨hall, _, hlt⟩ := h
  refine ⟨?_, hlt⟩
  intro r hr hrpos
  obtain ⟨hmem, hkeep⟩ := List.mem_filter.mp hr
  have hb := (hall r hmem hrpos).1
  simp [hb] at hkeep

lemma badAt_op (buf : QueryTextBuf) (pos : ℕ) (op : StoreOp)
    (h : badAt buf pos) : badAt (applyStoreOp buf op) pos := by
  obtain ⟨hall, hlt⟩ := h
  cases op with
  | saveOp b q query =>
      rcases SaveQueryText_buf_cases buf OverflowTargetKind.targetNone b q query
        with hcase | hcase <;>
        simp only [applyStoreOp] <;> rw [hcase]
      · exact ⟨hall, hlt⟩
      · refine ⟨?_, by simp; omega⟩
        intro r hr
        rcases List.mem_cons.mp hr with hhead | htail
        · rw [hhead]
          simp
          omega
        · exact hall r htail
  | evictOp b =>
      refine ⟨?_, hlt⟩
      intro r hr
      exact hall r (List.mem_filter.mp hr).1

lemma badAt_ops (ops : List StoreOp) :
    ∀ buf : QueryTextBuf, ∀ pos : ℕ, badAt buf pos →
      badAt (applyStoreOps buf ops) pos := by
  induction ops with
  | nil => intro buf pos h; exact h
  | cons op rest ih =>
      intro buf pos h
      exact ih (applyStoreOp buf op) pos (badAt_op buf pos op h)

lemma goodAt_ops (ops : List StoreOp) :
    ∀ buf : QueryTextBuf, ∀ pos b : ℕ, ∀ bytes : List ℕ,
      goodAt buf pos b bytes → (∀ op ∈ ops, op ≠ StoreOp.evictOp b) →
      goodAt (applyStoreOps buf ops) pos b bytes := by
  induction ops with
  | nil => intro buf pos b bytes h _; exact h
  | cons op rest ih =>
      intro buf pos b bytes h hno
      have hrest : ∀ o ∈ rest, o ≠ StoreOp.evictOp b :=
        fun o ho => hno o (List.mem_cons_of_mem _ ho)
      cases op with
      | saveOp b' q' query' =>
          exact ih _ pos b bytes (goodAt_saveOp buf pos b bytes _ b' q' query' h) hrest
      | evictOp b' =>
          have hne : b' ≠ b := by
            intro hc
            exact hno (StoreOp.evictOp b') (List.mem_cons_self _ _) (by rw [hc])
          exact ih _ pos b bytes (goodAt_evict_ne buf pos b b' bytes h hne) hrest

lemma good_or_bad_ops (ops : List StoreOp) :
    ∀ buf : QueryTextBuf, ∀ pos b : ℕ, ∀ bytes : List ℕ,
      goodAt buf pos b bytes ∨ badAt buf pos →
      goodAt (applyStoreOps buf ops) pos b bytes ∨
        badAt (applyStoreOps buf ops) pos := by
  induction ops with
  | nil => intro buf pos b bytes h; exact h
  | cons op rest ih =>
      intro buf pos b bytes h
      rcases h with hg | hb
      · cases op with
        | saveOp b' q' query' =>
            exact ih _ pos b bytes
              (Or.inl (goodAt_saveOp buf pos b bytes _ b' q' query' hg))
        | evictOp b' =>
            by_cases hbe : b' = b
            · subst hbe
              exact ih _ pos b' bytes (Or.inr (goodAt_evict_self buf pos b' bytes hg))
            · exact ih _ pos b bytes
                (Or.inl (goodAt_evict_ne buf pos b b' bytes hg hbe))
      · exact ih _ pos b bytes (Or.inr (badAt_op buf pos op hb))

lemma saved_goodAt (buf : QueryTextBuf) (cfg : OverflowTargetKind)
    (b q pos : ℕ) (query : List ℕ) (hwf : buf.WF)
    (hsave : (SaveQueryText buf cfg b q query).2 = SaveOutcome.savedAt pos) :
    goodAt (SaveQueryText buf cfg b q query).1 pos b query := by
  unfold SaveQueryText at hsave ⊢
  by_cases hov : QUERY_BUFFER_OVERFLOW buf.used query.length buf.cap
  · exfalso
    by_cases hcfg : cfg = OverflowTargetKind.targetDisk <;>
      simp [hov, hcfg] at hsave
  · simp only [hov, Bool.false_eq_true, if_false] at hsave ⊢
    have hpos : pos = buf.used := by
      have := (SaveOutcome.savedAt.injEq _ _).mp hsave.symm
      omega
    subst hpos
    refine ⟨?_, ⟨(buf.used, b, q, query), List.mem_cons_self _ _, rfl⟩,
      by simp [sizeof_uint64]; omega⟩
    intro r hr hrpos
    rcases List.mem_cons.mp hr with hhead | htail
    · rw [hhead]
      exact ⟨rfl, rfl⟩
    · exfalso
      have := hwf r htail
      omega

/-- C7: a query text saved with handle `pos` reads back byte-for-byte as long
as the owning entry's bucket has not had its text spans evicted; once the
bucket is evicted the read fails with a not-found result; and a read through
the handle never returns different (corrupted) bytes. -/
theorem query_text_read_after_save (buf : QueryTextBuf) (cfg : OverflowTargetKind)
    (bucketid queryid pos : ℕ) (query : List ℕ) (hwf : buf.WF)
    (hsave : (SaveQueryText buf cfg bucketid queryid query).2 =
      SaveOutcome.savedAt pos) :
    (∀ ops, (∀ op ∈ ops, op ≠ StoreOp.evictOp bucketid) →
      readQueryText
        (applyStoreOps (SaveQueryText buf cfg bucketid queryid query).1 ops) pos =
        some query) ∧
    (∀ ops1 ops2,
      readQueryText
        (applyStoreOps (SaveQueryText buf cfg bucketid queryid query).1
          (ops1 ++ StoreOp.evictOp bucketid :: ops2)) pos = none) ∧
    (∀ ops x,
      readQueryText
        (applyStoreOps (SaveQueryText buf cfg bucketid queryid query).1 ops) pos =
        some x → x = query) := by
  have hgood := saved_goodAt buf cfg bucketid queryid pos query hwf hsave
  refine ⟨?_, ?_, ?_⟩
  · intro ops hno
    exact goodAt_read _ pos bucketid query (goodAt_ops ops _ pos bucketid query hgood hno)
  · intro ops1 ops2
    have hsplit :
        applyStoreOps (SaveQueryText buf cfg bucketid queryid query).1
            (ops1 ++ StoreOp.evictOp bucketid :: ops2) =
          applyStoreOps
            (applyStoreOp
              (applyStoreOps (SaveQueryText buf cfg bucketid queryid query).1 ops1)
              (StoreOp.evictOp bucketid)) ops2 := by
      rw [applyStoreOps, List.foldl_append]
      rfl
    rw [hsplit]
    have h1 := good_or_bad_ops ops1 _ pos bucketid query (Or.inl hgood)
    have hbad : badAt
        (applyStoreOp
          (applyStoreOps (SaveQueryText buf cfg bucketid queryid query).1 ops1)
          (StoreOp.evictOp bucketid)) pos := by
      rcases h1 with hg | hb
      · exact goodAt_evict_self _ pos bucketid query hg
      · exact badAt_op _ pos _ hb
    exact badAt_read _ pos (badAt_ops ops2 _ pos hbad)
  · intro ops x hx
    rcases good_or_bad_ops ops _ pos bucketid query (Or.inl hgood) with hg | hb
    · have := goodAt_read _ pos bucketid query hg
      rw [this] at hx
      exact (Option.some.injEq _ _).mp hx.symm
    · rw [badAt_read _ pos hb] at hx
      cases hx

/-- Witness for C7: save `[1, 2, 3]` for bucket 5 into an empty store, then
evict bucket 5; the read through the issued handle reports not-found. -/
theorem query_text_read_after_save_witness :
    QueryTextBuf.WF { used := 0, cap := 100, records := [] } ∧
    (SaveQueryText { used := 0, cap := 100, records := [] }
        OverflowTargetKind.targetNone 5 9 [1, 2, 3]).2 = SaveOutcome.savedAt 0 ∧
    readQueryText
      (applyStoreOps
        (SaveQueryText { used := 0, cap := 100, records := [] }
          OverflowTargetKind.targetNone 5 9 [1, 2, 3]).1
        ([] ++ StoreOp.evictOp 5 :: [])) 0 = none := by
  have hwf : QueryTextBuf.WF { used := 0, cap := 100, records := [] } := by
    intro r hr
    simp at hr
  have hsave : (SaveQueryText { used := 0, cap := 100, records := [] }
      OverflowTargetKind.targetNone 5 9 [1, 2, 3]).2 = SaveOutcome.savedAt 0 := rfl
  exact ⟨hwf, hsave,
    (query_text_read_after_save { used := 0, cap := 100, records := [] }
      OverflowTargetKind.targetNone 5 9 0 [1, 2, 3] hwf hsave).2.1 [] []⟩

/-- C8: every steady-state ingest returns `ok` — no internal condition
(table full, text buffer full, lock failure, corrupted handle) is ever
raised to the caller; lock failures and corrupted handles are absorbed as a
skipped-and-logged outcome, and a full table as a dropped entry. -/
theorem ingest_never_raises (s : IngestState) (cond : IngestConditions)
    (k : pgssHashKey) (cfg : OverflowTargetKind) (query : List ℕ) (t : ℚ) :
    (∃ r, pgsm_store s cond k cfg query t = Except.ok r) ∧
    ((cond.lockFailure || cond.corruptHandle) = true →
      pgsm_store s cond k cfg query t = Except.ok (s, IngestOutcome.skippedLogged)) ∧
    ((cond.lockFailure || cond.corruptHandle) = false →
      find_or_insert_capped s.tab s.maxEntries k = none →
      pgsm_store s cond k cfg query t = Except.ok (s, IngestOutcome.entryDropped)) := by
  refine ⟨?_, ?_, ?_⟩
  · unfold pgsm_store
    by_cases hcond : (cond.lockFailure || cond.corruptHandle) = true
    · exact ⟨(s, IngestOutcome.skippedLogged), by simp [hcond]⟩
    · cases hfi : find_or_insert_capped s.tab s.maxEntries k with
      | none => exact ⟨(s, IngestOutcome.entryDropped), by simp [hcond, hfi]⟩
      | some r =>
          obtain ⟨slot, found, tab'⟩ := r
          refine ⟨({ s with
              tab := tab'
              textBuf := (SaveQueryText s.textBuf cfg k.bucket_id k.queryid query).1
              stats := fun i => if i = slot then recordCall (s.stats i) t
                else s.stats i },
            IngestOutcome.recorded slot), ?_⟩
          simp [hcond, hfi]
  · intro hcond
    unfold pgsm_store
    simp [hcond]
  · intro hcond hfi
    unfold pgsm_store
    simp [hcond, hfi]

/-- Witness for C8: a lock failure on an empty state is absorbed as a
skipped-and-logged outcome, not an error. -/
theorem ingest_never_raises_witness :
    ((({ lockFailure := true, corruptHandle := false } : IngestConditions).lockFailure ||
      ({ lockFailure := true, corruptHandle := false } : IngestConditions).corruptHandle) = true) ∧
    pgsm_store
        { tab := emptyTab, stats := fun _ => EntryStats.init,
          textBuf := { used := 0, cap := 100, records := [] }, maxEntries := 10 }
        { lockFailure := true, corruptHandle := false } keyA
        OverflowTargetKind.targetNone [] 0 =
      Except.ok
        ({ tab := emptyTab, stats := fun _ => EntryStats.init,
           textBuf := { used := 0, cap := 100, records := [] }, maxEntries := 10 },
          IngestOutcome.skippedLogged) :=
  ⟨rfl,
    (ingest_never_raises
      { tab := emptyTab, stats := fun _ => EntryStats.init,
        textBuf := { used := 0, cap := 100, records := [] }, maxEntries := 10 }
      { lockFailure := true, corruptHandle := false } keyA
      OverflowTargetKind.targetNone [] 0).2.1 rfl⟩

lemma sum_contrib_update (W : ℕ) (f : Fin W → WorkerPC) (w : Fin W) (x : WorkerPC) :
    (∑ i, contrib (Function.update f w x i)) + contrib (f w) =
      (∑ i, contrib (f i)) + contrib x := by
  rw [← Finset.sum_erase_add Finset.univ (fun i => contrib (f i)) (Finset.mem_univ w)]
  rw [← Finset.sum_erase_add Finset.univ
    (fun i => contrib (Function.update f w x i)) (Finset.mem_univ w)]
  have h1 : ∀ i ∈ Finset.univ.erase w,
      contrib (Function.update f w x i) = contrib (f i) := by
    intro i hi
    rw [Function.update_noteq (Finset.mem_erase.mp hi).1]
  rw [Finset.sum_congr rfl h1, Function.update_same]
  ring

lemma recStep_inv {W c0 : ℕ} {s s' : RecState W}
    (hstep : RecStep W s s') (hinv : RecInv W c0 s) : RecInv W c0 s' := by
  obtain ⟨hsum, hacq, hread⟩ := hinv
  cases hstep with
  | acquire w hlock hpc =>
      refine ⟨?_, ?_, ?_⟩
      · dsimp only
        have h := sum_contrib_update W s.pc w WorkerPC.acquired
        rw [hpc] at h
        have e1 : contrib WorkerPC.ready = 0 := rfl
        have e2 : contrib WorkerPC.acquired = 0 := rfl
        rw [e1, e2] at h
        omega
      · intro w' hw'
        dsimp only at hw' ⊢
        by_cases hww : w' = w
        · rw [hww]
        · rw [Function.update_noteq hww] at hw'
          rw [hacq w' hw'] at hlock
          cases hlock
      · intro w' v hw'
        dsimp only at hw' ⊢
        by_cases hww : w' = w
        · rw [hww, Function.update_same] at hw'
          cases hw'
        · rw [Function.update_noteq hww] at hw'
          rw [(hread w' v hw').1] at hlock
          cases hlock
  | readCalls w hlock hpc =>
      refine ⟨?_, ?_, ?_⟩
      · dsimp only
        have h := sum_contrib_update W s.pc w (WorkerPC.readv s.calls)
        rw [hpc] at h
        have e1 : contrib WorkerPC.acquired = 0 := rfl
        have e2 : contrib (WorkerPC.readv s.calls) = 0 := rfl
        rw [e1, e2] at h
        omega
      · intro w' hw'
        dsimp only at hw' ⊢
        by_cases hww : w' = w
        · rw [hww, Function.update_same] at hw'
          cases hw'
        · rw [Function.update_noteq hww] at hw'
          exact hacq w' hw'
      · intro w' v hw'
        dsimp only at hw' ⊢
        by_cases hww : w' = w
        · rw [hww, Function.update_same] at hw'
          cases hw'
          rw [hww]
          exact ⟨hlock, rfl⟩
        · rw [Function.update_noteq hww] at hw'
          have h := hread w' v hw'
          rw [h.1] at hlock
          cases hlock
          exact absurd rfl hww
  | writeCalls w v hlock hpc =>
      have hv : v = s.calls := (hread w v hpc).2
      refine ⟨?_, ?_, ?_⟩
      · dsimp only
        have h := sum_contrib_update W s.pc w WorkerPC.wrote
        rw [hpc] at h
        have e1 : contrib (WorkerPC.readv v) = 0 := rfl
        have e2 : contrib WorkerPC.wrote = 1 := rfl
        rw [e1, e2] at h
        omega
      · intro w' hw'
        dsimp only at hw' ⊢
        by_cases hww : w' = w
        · rw [hww, Function.update_same] at hw'
          cases hw'
        · rw [Function.update_noteq hww] at hw'
          have h := hacq w' hw'
          rw [h] at hlock
          cases hlock
          exact absurd rfl hww
      · intro w' v' hw'
        dsimp only at hw' ⊢
        by_cases hww : w' = w
        · rw [hww, Function.update_same] at hw'
          cases hw'
        · rw [Function.update_noteq hww] at hw'
          have h := hread w' v' hw'
          rw [h.1] at hlock
          cases hlock
          exact absurd rfl hww
  | release w hlock hpc =>
      refine ⟨?_, ?_, ?_⟩
      · dsimp only
        have h := sum_contrib_update W s.pc w WorkerPC.done
        rw [hpc] at h
        have e1 : contrib WorkerPC.wrote = 1 := rfl
        have e2 : contrib WorkerPC.done = 1 := rfl
        rw [e1, e2] at h
        omega
      · intro w' hw'
        dsimp only at hw' ⊢
        by_cases hww : w' = w
        · rw [hww, Function.update_same] at hw'
          cases hw'
        · rw [Function.update_noteq hww] at hw'
          have h := hacq w' hw'
          rw [h] at hlock
          cases hlock
          exact absurd rfl hww
      · intro w' v' hw'
        dsimp only at hw' ⊢
        by_cases hww : w' = w
        · rw [hww, Function.update_same] at hw'
          cases hw'
        · rw [Function.update_noteq hww] at hw'
          have h := hread w' v' hw'
          rw [h.1] at hlock
          cases hlock
          exact absurd rfl hww

lemma reachable_inv (W c0 : ℕ) (s : RecState W)
    (h : Relation.ReflTransGen (RecStep W) (recInit W c0) s) : RecInv W c0 s := by
  induction h with
  | refl =>
      refine ⟨?_, ?_, ?_⟩
      · simp [recInit, contrib]
      · intro w hw
        cases hw
      · intro w v hw
        cases hw
  | tail _ hstep ih => exact recStep_inv hstep ih

/-- C9: for every number `W` of workers and every initial counter `c0`, in
any reachable interleaving of the `W` workers each performing the locked
`calls := calls + 1` merge (acquire the entry's mutex, read, write back,
release) in which all workers have finished, the final counter equals
`c0 + W` — no update is lost. -/
theorem concurrent_record_no_lost_update (W c0 : ℕ) (s : RecState W)
    (hreach : Relation.ReflTransGen (RecStep W) (recInit W c0) s)
    (hdone : ∀ w, s.pc w = WorkerPC.done) :
    s.calls = c0 + W := by
  have hinv := reachable_inv W c0 s hreach
  rw [hinv.1]
  have hc : ∀ w : Fin W, contrib (s.pc w) = 1 := by
    intro w
    rw [hdone w]
    rfl
  rw [Finset.sum_congr rfl (fun w _ => hc w)]
  simp

/-- Witness for C9: the one-worker trace
acquire → read → write → release ends with `calls = 0 + 1`. -/
theorem concurrent_record_no_lost_update_witness :
    Relation.ReflTransGen (RecStep 1) (recInit 1 0) rs4 ∧
    (∀ w, rs4.pc w = WorkerPC.done) ∧ rs4.calls = 0 + 1 := by
  have t1 : RecStep 1 rs0 rs1 := RecStep.acquire rs0 0 rfl rfl
  have t2 : RecStep 1 rs1 rs2 := RecStep.readCalls rs1 0 rfl (by decide)
  have t3 : RecStep 1 rs2 rs3 := RecStep.writeCalls rs2 0 0 rfl (by decide)
  have t4 : RecStep 1 rs3 rs4 := RecStep.release rs3 0 rfl (by decide)
  have hreach : Relation.ReflTransGen (RecStep 1) (recInit 1 0) rs4 :=
    Relation.ReflTransGen.tail
      (Relation.ReflTransGen.tail
        (Relation.ReflTransGen.tail
          (Relation.ReflTransGen.tail Relation.ReflTransGen.refl t1) t2) t3) t4
  have hdone : ∀ w, rs4.pc w = WorkerPC.done := by decide
  exact ⟨hreach, hdone, concurrent_record_no_lost_update 1 0 rs4 hreach hdone⟩

end PgStatMonitor
